import Mathlib

/-!
Shallow embedding of the wasm-interpreter crate (wasm-interpreter/src/lib.rs).

The interpreter is generic over a numeric lane; the one concrete instance,
Program, implements the 32-bit unsigned integer lane (Interpreter<u32>)
and leaves the f32/f64/u64 lanes as the default fatal stubs that panic
with a type error.  We embed that instance: machine u32 values are Nat
reduced modulo 2 ^ 32, Rust panics (division by zero, signed overflow,
out-of-bounds slice access, type-error stubs) are Option.none, and the
mutable locals/heap are threaded explicitly through a State record.
-/

namespace WasmInterpreter

/-- wasm_ast value representations (Typ): F32, F64, I32, I64. -/
inductive Typ
| F32
| F64
| I32
| I64
deriving DecidableEq

/-- wasm_ast binary operators, as matched in Program::interpret_binop. -/
inductive BinOp
| Add
| And
| DivS
| DivU
| Eq
| GeS
| GeU
| GtS
| GtU
| LeS
| LeU
| LtS
| LtU
| Mul
| Ne
| Or
| RemS
| RemU
| RotL
| RotR
| Shl
| ShrS
| ShrU
| Sub
| Xor
deriving DecidableEq

/-- wasm_ast unary operators, as matched in Program::interpret_unop. -/
inductive UnaryOp
| Clz
| Ctz
| Popcnt
| Eqz
deriving DecidableEq

/-- wasm_ast constants.  Float payloads are represented by their bit
patterns (the u32 lane of the interpreter never inspects them: it aborts). -/
inductive Const
| F32Const (bits : Nat)
| F64Const (bits : Nat)
| I32Const (value : Nat)
| I64Const (value : Nat)
deriving DecidableEq

/-- wasm_ast expression trees, the node shapes consumed by
Interpreter::interpret_expr.  Var is just its position field. -/
inductive Expr
| BinOpExpr (typ : Typ) (op : BinOp) (lhs rhs : Expr)
| ConstExpr (c : Const)
| GetLocalExpr (position : Nat)
| GrowMemoryExpr (ext : Expr)
| IfThenExpr (cond true_branch : Expr)
| IfThenElseExpr (cond true_branch false_branch : Expr)
| LoadExpr (typ : Typ) (addr : Expr)
| NopExpr
| SetLocalExpr (position : Nat) (value : Expr)
| StoreExpr (typ : Typ) (addr value : Expr)
| UnaryOpExpr (typ : Typ) (op : UnaryOp) (arg : Expr)
deriving DecidableEq

/-- Reinterpret a u32 bit pattern as a signed i32 (Rust: lhs as i32). -/
def toSigned (a : Nat) : Int :=
  if a < 2 ^ 31 then (a : Int) else (a : Int) - 2 ^ 32

/-- Reinterpret a signed result back as a u32 bit pattern
(Rust: expr as u32). -/
def ofSigned (i : Int) : Nat :=
  (i % 2 ^ 32).toNat

/-- Rust u32::rotate_left: the rotation amount is taken modulo 32. -/
def rotate_left (a k : Nat) : Nat :=
  ((a <<< (k % 32)) % 2 ^ 32) ||| (a >>> (32 - k % 32))

/-- Rust u32::rotate_right: the rotation amount is taken modulo 32. -/
def rotate_right (a k : Nat) : Nat :=
  (a >>> (k % 32)) ||| ((a <<< (32 - k % 32)) % 2 ^ 32)

/-- Rust u32::leading_zeros: index of the highest set bit, counted from
bit 31 downwards; 32 when the argument is zero. -/
def leading_zeros (a : Nat) : Nat :=
  ((List.range 32).find? (fun i => a.testBit (31 - i))).getD 32

/-- Rust u32::trailing_zeros: index of the lowest set bit; 32 when the
argument is zero. -/
def trailing_zeros (a : Nat) : Nat :=
  ((List.range 32).find? (fun i => a.testBit i)).getD 32

/-- Rust u32::count_ones: number of set bits among bits 0..31. -/
def count_ones (a : Nat) : Nat :=
  (List.range 32).countP (fun i => a.testBit i)

/-- Program::interpret_binop on the u32 lane.  none models a Rust panic:
unsigned division or remainder by zero, and signed division or remainder
that panics when the divisor is zero or when the quotient overflows i32
(i32::MIN with divisor -1; Rust checks both operators).  Int.tdiv and
Int.tmod are truncated division and remainder, the semantics of signed / and % in Rust. -/
def interpret_binop (op : BinOp) (lhs rhs : Nat) : Option Nat :=
  match op with
  | .Add => some ((lhs + rhs) % 2 ^ 32)
  | .And => some (lhs &&& rhs)
  | .DivU => if rhs = 0 then none else some (lhs / rhs)
  | .DivS =>
      if toSigned rhs = 0 then none
      else if toSigned lhs = -(2 ^ 31) ∧ toSigned rhs = -1 then none
      else some (ofSigned (Int.tdiv (toSigned lhs) (toSigned rhs)))
  | .Eq => some (if lhs = rhs then 1 else 0)
  | .GeS => some (if toSigned rhs ≤ toSigned lhs then 1 else 0)
  | .GeU => some (if rhs ≤ lhs then 1 else 0)
  | .GtS => some (if toSigned rhs < toSigned lhs then 1 else 0)
  | .GtU => some (if rhs < lhs then 1 else 0)
  | .LeS => some (if toSigned lhs ≤ toSigned rhs then 1 else 0)
  | .LeU => some (if lhs ≤ rhs then 1 else 0)
  | .LtS => some (if toSigned lhs < toSigned rhs then 1 else 0)
  | .LtU => some (if lhs < rhs then 1 else 0)
  | .Mul => some ((lhs * rhs) % 2 ^ 32)
  | .Ne => some (if lhs = rhs then 0 else 1)
  | .Or => some (lhs ||| rhs)
  | .RemS =>
      if toSigned rhs = 0 then none
      else if toSigned lhs = -(2 ^ 31) ∧ toSigned rhs = -1 then none
      else some (ofSigned (Int.tmod (toSigned lhs) (toSigned rhs)))
  | .RemU => if rhs = 0 then none else some (lhs % rhs)
  | .RotL => some (rotate_left lhs rhs)
  | .RotR => some (rotate_right lhs rhs)
  | .Shl => some ((lhs <<< (rhs % 32)) % 2 ^ 32)
  | .ShrS => some (ofSigned (Int.fdiv (toSigned lhs) (2 ^ (rhs % 32))))
  | .ShrU => some (lhs >>> (rhs % 32))
  | .Sub => some ((lhs + (2 ^ 32 - rhs % 2 ^ 32)) % 2 ^ 32)
  | .Xor => some (lhs ^^^ rhs)

/-- Program::interpret_unop on the u32 lane; total. -/
def interpret_unop (op : UnaryOp) (arg : Nat) : Nat :=
  match op with
  | .Clz => leading_zeros arg
  | .Ctz => trailing_zeros arg
  | .Popcnt => count_ones arg
  | .Eqz => if arg = 0 then 1 else 0

/-- Default Interpreter::from_f32 stub: a fatal type-error panic. -/
def from_f32 (_ : Nat) : Option Nat := none

/-- Default Interpreter::from_f64 stub: a fatal type-error panic. -/
def from_f64 (_ : Nat) : Option Nat := none

/-- Default Interpreter::from_i64 stub: a fatal type-error panic. -/
def from_i64 (_ : Nat) : Option Nat := none

/-- Program::from_i32: the u32 literal is accepted unchanged. -/
def from_i32 (value : Nat) : Option Nat := some value

/-- Program::from_raw: truncate the 64-bit slot to the low 32 bits
(Rust: value as u32). -/
def from_raw (value : Nat) : Nat := value % 2 ^ 32

/-- Program::to_raw: zero-extend the u32 into the 64-bit slot
(Rust: value as u64); numerically the identity. -/
def to_raw (value : Nat) : Nat := value

/-- Little-endian byte string of length n for value v (the byteorder write_u32 and write_u64 layouts: least significant byte first). -/
def le_bytes : Nat → Nat → List Nat
  | 0, _ => []
  | n + 1, v => v % 256 :: le_bytes n (v / 256)

/-- Little-endian decoding of a byte string (the byteorder read_u32 and read_u64 layouts). -/
def le_decode : List Nat → Nat
  | [] => 0
  | b :: rest => b + 256 * le_decode rest

/-- Read n bytes little-endian at offset off.  none models the Rust
panic when the slice heap[off..] holds fewer than n bytes. -/
def read_bytes (heap : List Nat) (off n : Nat) : Option Nat :=
  if off + n ≤ heap.length then some (le_decode ((heap.drop off).take n)) else none

/-- Overwrite n bytes at offset off with the little-endian encoding of
v.  none models the Rust panic when the slice is too short. -/
def write_bytes (heap : List Nat) (off n v : Nat) : Option (List Nat) :=
  if off + n ≤ heap.length then
    some (heap.take off ++ le_bytes n v ++ heap.drop (off + n))
  else none

/-- The mutable context of one evaluation: the locals slice of raw
64-bit slots and the growable byte heap. -/
structure State where
  locals : List Nat
  heap : List Nat
deriving DecidableEq

/-- Interpreter::interpret_expr as instantiated for Program at the u32
lane (the only lane Program implements; conditions, addresses and
grow-memory deltas are evaluated in this same lane).  none models an
evaluation-aborting panic.  Nodes that switch into a lane Program does
not implement (loads and stores tagged F32, F64 or I64, and float or
64-bit-integer constants) hit the fatal type-error stubs. -/
def interpret_expr : Expr → State → Option (Nat × State)
  | .BinOpExpr _ op lhs rhs, s =>
    (interpret_expr lhs s).bind fun (l, s1) =>
      (interpret_expr rhs s1).bind fun (r, s2) =>
        (interpret_binop op l r).map fun v => (v, s2)
  | .ConstExpr (.F32Const bits), s => (from_f32 bits).map fun v => (v, s)
  | .ConstExpr (.F64Const bits), s => (from_f64 bits).map fun v => (v, s)
  | .ConstExpr (.I32Const value), s =>
    (from_i32 (value % 2 ^ 32)).map fun v => (v, s)
  | .ConstExpr (.I64Const value), s => (from_i64 value).map fun v => (v, s)
  | .GetLocalExpr position, s =>
    if position < s.locals.length then
      some (from_raw (s.locals.getD position 0), s)
    else none
  | .GrowMemoryExpr ext, s =>
    let result := s.heap.length % 2 ^ 32
    (interpret_expr ext s).bind fun (e, s1) =>
      (from_i32 result).map fun v =>
        (v, { s1 with heap := s1.heap ++ List.replicate e 0 })
  | .IfThenExpr cond true_branch, s =>
    (interpret_expr cond s).bind fun (c, s1) =>
      if c = 0 then some (0, s1) else interpret_expr true_branch s1
  | .IfThenElseExpr cond true_branch false_branch, s =>
    (interpret_expr cond s).bind fun (c, s1) =>
      if c = 0 then interpret_expr false_branch s1
      else interpret_expr true_branch s1
  | .LoadExpr .F32 addr, s =>
    (interpret_expr addr s).bind fun (a, s1) =>
      (read_bytes s1.heap a 4).bind fun bits =>
        (from_f32 bits).map fun v => (v, s1)
  | .LoadExpr .F64 addr, s =>
    (interpret_expr addr s).bind fun (a, s1) =>
      (read_bytes s1.heap a 8).bind fun bits =>
        (from_f64 bits).map fun v => (v, s1)
  | .LoadExpr .I32 addr, s =>
    (interpret_expr addr s).bind fun (a, s1) =>
      (read_bytes s1.heap a 4).bind fun value =>
        (from_i32 value).map fun v => (v, s1)
  | .LoadExpr .I64 addr, s =>
    (interpret_expr addr s).bind fun (a, s1) =>
      (read_bytes s1.heap a 8).bind fun value =>
        (from_i64 value).map fun v => (v, s1)
  | .NopExpr, s => some (0, s)
  | .SetLocalExpr position value, s =>
    (interpret_expr value s).bind fun (v, s1) =>
      if position < s1.locals.length then
        some (v, { s1 with locals := s1.locals.set position (to_raw v) })
      else none
  | .StoreExpr .F32 addr _, s =>
    (interpret_expr addr s).bind fun _ => none
  | .StoreExpr .F64 addr _, s =>
    (interpret_expr addr s).bind fun _ => none
  | .StoreExpr .I32 addr value, s =>
    (interpret_expr addr s).bind fun (a, s1) =>
      (interpret_expr value s1).bind fun (v, s2) =>
        (write_bytes s2.heap a 4 v).bind fun h2 =>
          (from_i32 v).map fun w => (w, { s2 with heap := h2 })
  | .StoreExpr .I64 addr _, s =>
    (interpret_expr addr s).bind fun _ => none
  | .UnaryOpExpr _ op arg, s =>
    (interpret_expr arg s).map fun (a, s1) => (interpret_unop op a, s1)

/-- Heaps hold bytes: every element of the heap list is below 256. -/
def heapWF (s : State) : Prop := ∀ b ∈ s.heap, b < 256

/-- An expression tree containing no grow-memory node. -/
def no_grow : Expr → Bool
  | .BinOpExpr _ _ lhs rhs => no_grow lhs && no_grow rhs
  | .ConstExpr _ => true
  | .GetLocalExpr _ => true
  | .GrowMemoryExpr _ => false
  | .IfThenExpr cond true_branch => no_grow cond && no_grow true_branch
  | .IfThenElseExpr cond true_branch false_branch =>
    no_grow cond && (no_grow true_branch && no_grow false_branch)
  | .LoadExpr _ addr => no_grow addr
  | .NopExpr => true
  | .SetLocalExpr _ value => no_grow value
  | .StoreExpr _ addr value => no_grow addr && no_grow value
  | .UnaryOpExpr _ _ arg => no_grow arg

/-! Codec lemmas -/

lemma le_bytes_length (n v : Nat) : (le_bytes n v).length = n := by
  induction n generalizing v with
  | zero => rfl
  | succ m ih => simp [le_bytes, ih]

lemma le_bytes_lt (n v : Nat) : ∀ b ∈ le_bytes n v, b < 256 := by
  induction n generalizing v with
  | zero => simp [le_bytes]
  | succ m ih =>
    simp only [le_bytes, List.mem_cons]
    rintro b (rfl | hb)
    · exact Nat.mod_lt _ (by norm_num)
    · exact ih _ _ hb

lemma le_decode_le_bytes (n v : Nat) (h : v < 256 ^ n) :
    le_decode (le_bytes n v) = v := by
  induction n generalizing v with
  | zero =>
    simp only [pow_zero, Nat.lt_one_iff] at h
    simp [le_bytes, le_decode, h]
  | succ m ih =>
    have hdiv : v / 256 < 256 ^ m := by
      rw [Nat.div_lt_iff_lt_mul (by norm_num)]
      calc v < 256 ^ (m + 1) := h
        _ = 256 ^ m * 256 := by rw [pow_succ]
    simp only [le_bytes, le_decode, ih _ hdiv]
    omega

lemma le_decode_lt (bs : List Nat) (h : ∀ b ∈ bs, b < 256) :
    le_decode bs < 256 ^ bs.length := by
  induction bs with
  | nil => simp [le_decode]
  | cons b rest ih =>
    have hb : b < 256 := h b (by simp)
    have hr : le_decode rest < 256 ^ rest.length :=
      ih (fun x hx => h x (by simp [hx]))
    have h1 : le_decode rest + 1 ≤ 256 ^ rest.length := hr
    have h2 : 256 * (le_decode rest + 1) ≤ 256 * 256 ^ rest.length :=
      Nat.mul_le_mul_left 256 h1
    simp only [le_decode, List.length_cons, pow_succ]
    omega

lemma write_bytes_eq (heap : List Nat) (off n v : Nat) (hoff : off + n ≤ heap.length) :
    write_bytes heap off n v =
      some (heap.take off ++ le_bytes n v ++ heap.drop (off + n)) := by
  simp [write_bytes, hoff]

lemma write_bytes_length (heap : List Nat) (off n v : Nat) (h2 : List Nat)
    (h : write_bytes heap off n v = some h2) : h2.length = heap.length := by
  unfold write_bytes at h
  split at h
  · cases h
    simp only [List.length_append, List.length_take, List.length_drop, le_bytes_length]
    omega
  · cases h

lemma write_bytes_wf (heap : List Nat) (off n v : Nat) (h2 : List Nat)
    (hheap : ∀ b ∈ heap, b < 256) (h : write_bytes heap off n v = some h2) :
    ∀ b ∈ h2, b < 256 := by
  unfold write_bytes at h
  split at h
  · cases h
    intro b hb
    simp only [List.mem_append] at hb
    rcases hb with (hb | hb) | hb
    · exact hheap b (List.mem_of_mem_take hb)
    · exact le_bytes_lt n v b hb
    · exact hheap b (List.mem_of_mem_drop hb)
  · cases h

lemma drop_length_append {α : Type} (A B : List α) (m : Nat) (h : A.length = m) :
    (A ++ B).drop m = B := by
  subst h
  exact List.drop_left A B

lemma take_length_append {α : Type} (A B : List α) (m : Nat) (h : A.length = m) :
    (A ++ B).take m = A := by
  subst h
  exact List.take_left A B

lemma read_write_bytes (heap : List Nat) (off n v : Nat)
    (hoff : off + n ≤ heap.length) (hv : v < 256 ^ n) :
    ∃ h2, write_bytes heap off n v = some h2 ∧ read_bytes h2 off n = some v ∧
      h2.length = heap.length := by
  refine ⟨heap.take off ++ le_bytes n v ++ heap.drop (off + n),
    write_bytes_eq heap off n v hoff, ?_, ?_⟩
  · have hlen : (heap.take off ++ le_bytes n v ++ heap.drop (off + n)).length =
        heap.length := by
      simp only [List.length_append, List.length_take, List.length_drop, le_bytes_length]
      omega
    have htk : (heap.take off).length = off := by
      simp only [List.length_take]
      omega
    have hdrop : (heap.take off ++ le_bytes n v ++ heap.drop (off + n)).drop off =
        le_bytes n v ++ heap.drop (off + n) := by
      rw [List.append_assoc]
      exact drop_length_append _ _ off htk
    have htake : (le_bytes n v ++ heap.drop (off + n)).take n = le_bytes n v :=
      take_length_append _ _ n (le_bytes_length n v)
    rw [read_bytes, if_pos (by omega), hdrop, htake, le_decode_le_bytes n v hv]
  · simp only [List.length_append, List.length_take, List.length_drop, le_bytes_length]
    omega

/-! Bounds: every u32-lane result fits in 32 bits -/

lemma ofSigned_lt (i : Int) : ofSigned i < 2 ^ 32 := by
  unfold ofSigned
  omega

lemma rotate_left_lt (a k : Nat) (ha : a < 2 ^ 32) : rotate_left a k < 2 ^ 32 := by
  unfold rotate_left
  refine Nat.bitwise_lt (Nat.mod_lt _ (by norm_num)) ?_
  calc a >>> (32 - k % 32) ≤ a := by
        rw [Nat.shiftRight_eq_div_pow]
        exact Nat.div_le_self _ _
    _ < 2 ^ 32 := ha

lemma rotate_right_lt (a k : Nat) (ha : a < 2 ^ 32) : rotate_right a k < 2 ^ 32 := by
  unfold rotate_right
  refine Nat.bitwise_lt ?_ (Nat.mod_lt _ (by norm_num))
  calc a >>> (k % 32) ≤ a := by
        rw [Nat.shiftRight_eq_div_pow]
        exact Nat.div_le_self _ _
    _ < 2 ^ 32 := ha

lemma interpret_binop_lt (op : BinOp) (a b v : Nat) (ha : a < 2 ^ 32)
    (hb : b < 2 ^ 32) (h : interpret_binop op a b = some v) : v < 2 ^ 32 := by
  cases op with
  | Add => simp only [interpret_binop, Option.some.injEq] at h; omega
  | And =>
    simp only [interpret_binop, Option.some.injEq] at h
    exact h ▸ Nat.bitwise_lt ha hb
  | DivU =>
    simp only [interpret_binop] at h
    split at h
    · cases h
    · simp only [Option.some.injEq] at h
      calc v = a / b := h.symm
        _ ≤ a := Nat.div_le_self _ _
        _ < 2 ^ 32 := ha
  | DivS =>
    simp only [interpret_binop] at h
    split at h
    · cases h
    · split at h
      · cases h
      · simp only [Option.some.injEq] at h
        exact h ▸ ofSigned_lt _
  | Eq => simp only [interpret_binop, Option.some.injEq] at h; split at h <;> omega
  | GeS => simp only [interpret_binop, Option.some.injEq] at h; split at h <;> omega
  | GeU => simp only [interpret_binop, Option.some.injEq] at h; split at h <;> omega
  | GtS => simp only [interpret_binop, Option.some.injEq] at h; split at h <;> omega
  | GtU => simp only [interpret_binop, Option.some.injEq] at h; split at h <;> omega
  | LeS => simp only [interpret_binop, Option.some.injEq] at h; split at h <;> omega
  | LeU => simp only [interpret_binop, Option.some.injEq] at h; split at h <;> omega
  | LtS => simp only [interpret_binop, Option.some.injEq] at h; split at h <;> omega
  | LtU => simp only [interpret_binop, Option.some.injEq] at h; split at h <;> omega
  | Mul => simp only [interpret_binop, Option.some.injEq] at h; omega
  | Ne => simp only [interpret_binop, Option.some.injEq] at h; split at h <;> omega
  | Or =>
    simp only [interpret_binop, Option.some.injEq] at h
    exact h ▸ Nat.bitwise_lt ha hb
  | RemS =>
    simp only [interpret_binop] at h
    split at h
    · cases h
    · split at h
      · cases h
      · simp only [Option.some.injEq] at h
        exact h ▸ ofSigned_lt _
  | RemU =>
    simp only [interpret_binop] at h
    split at h
    · cases h
    · simp only [Option.some.injEq] at h
      calc v = a % b := h.symm
        _ ≤ a := Nat.mod_le _ _
        _ < 2 ^ 32 := ha
  | RotL =>
    simp only [interpret_binop, Option.some.injEq] at h
    exact h ▸ rotate_left_lt a b ha
  | RotR =>
    simp only [interpret_binop, Option.some.injEq] at h
    exact h ▸ rotate_right_lt a b ha
  | Shl => simp only [interpret_binop, Option.some.injEq] at h; omega
  | ShrS =>
    simp only [interpret_binop, Option.some.injEq] at h
    exact h ▸ ofSigned_lt _
  | ShrU =>
    simp only [interpret_binop, Option.some.injEq] at h
    subst h
    calc a >>> (b % 32) ≤ a := by
          rw [Nat.shiftRight_eq_div_pow]
          exact Nat.div_le_self _ _
      _ < 2 ^ 32 := ha
  | Sub => simp only [interpret_binop, Option.some.injEq] at h; omega
  | Xor =>
    simp only [interpret_binop, Option.some.injEq] at h
    exact h ▸ Nat.bitwise_lt ha hb

lemma leading_zeros_le (a : Nat) : leading_zeros a ≤ 32 := by
  unfold leading_zeros
  cases hf : (List.range 32).find? (fun i => a.testBit (31 - i)) with
  | none => simp
  | some i =>
    have : i ∈ List.range 32 := List.mem_of_find?_eq_some hf
    simp only [List.mem_range] at this
    simp only [Option.getD_some]
    omega

lemma trailing_zeros_le (a : Nat) : trailing_zeros a ≤ 32 := by
  unfold trailing_zeros
  cases hf : (List.range 32).find? (fun i => a.testBit i) with
  | none => simp
  | some i =>
    have : i ∈ List.range 32 := List.mem_of_find?_eq_some hf
    simp only [List.mem_range] at this
    simp only [Option.getD_some]
    omega

lemma interpret_unop_lt (op : UnaryOp) (arg : Nat) :
    interpret_unop op arg < 2 ^ 32 := by
  cases op with
  | Clz =>
    have := leading_zeros_le arg
    simp only [interpret_unop]
    omega
  | Ctz =>
    have := trailing_zeros_le arg
    simp only [interpret_unop]
    omega
  | Popcnt =>
    have : count_ones arg ≤ 32 := by
      unfold count_ones
      calc (List.range 32).countP (fun i => arg.testBit i) ≤ (List.range 32).length :=
            List.countP_le_length _
        _ = 32 := List.length_range 32
    simp only [interpret_unop]
    omega
  | Eqz => simp only [interpret_unop]; split <;> omega

lemma read_bytes_lt (heap : List Nat) (off n value : Nat)
    (hwf : ∀ b ∈ heap, b < 256) (h : read_bytes heap off n = some value) :
    value < 256 ^ n := by
  unfold read_bytes at h
  split at h
  · rename_i hle
    cases h
    have hlen : ((heap.drop off).take n).length = n := by
      simp only [List.length_take, List.length_drop]
      omega
    have := le_decode_lt ((heap.drop off).take n)
      (fun b hb => hwf b (List.mem_of_mem_drop (List.mem_of_mem_take hb)))
    rw [hlen] at this
    exact this
  · cases h

/-! Evaluation invariant: starting from a byte-valued heap, every
successful evaluation returns a value below 2 ^ 32 and keeps the heap
byte-valued. -/

lemma interp_inv (e : Expr) : ∀ (s : State) (v : Nat) (s' : State),
    heapWF s → interpret_expr e s = some (v, s') → v < 2 ^ 32 ∧ heapWF s' := by
  induction e with
  | BinOpExpr typ op lhs rhs ihl ihr =>
    intro s v s' hwf h
    simp only [interpret_expr, Option.bind_eq_some, Option.map_eq_some',
      Prod.mk.injEq] at h
    obtain ⟨⟨l, s1⟩, h1, ⟨r, s2⟩, h2, w, hw, hv, hs⟩ := h
    subst hv hs
    obtain ⟨hl, hwf1⟩ := ihl s l s1 hwf h1
    obtain ⟨hr', hwf2⟩ := ihr s1 r s2 hwf1 h2
    exact ⟨interpret_binop_lt op l r _ hl hr' hw, hwf2⟩
  | ConstExpr c =>
    intro s v s' hwf h
    cases c with
    | F32Const bits => simp [interpret_expr, from_f32] at h
    | F64Const bits => simp [interpret_expr, from_f64] at h
    | I32Const value =>
      simp only [interpret_expr, from_i32, Option.map_some', Option.some.injEq,
        Prod.mk.injEq] at h
      obtain ⟨hv, hs⟩ := h
      subst hv hs
      exact ⟨Nat.mod_lt _ (by norm_num), hwf⟩
    | I64Const value => simp [interpret_expr, from_i64] at h
  | GetLocalExpr position =>
    intro s v s' hwf h
    simp only [interpret_expr] at h
    split at h
    · simp only [Option.some.injEq, Prod.mk.injEq] at h
      obtain ⟨hv, hs⟩ := h
      subst hv hs
      exact ⟨Nat.mod_lt _ (by norm_num), hwf⟩
    · cases h
  | GrowMemoryExpr ext ih =>
    intro s v s' hwf h
    simp only [interpret_expr, from_i32, Option.bind_eq_some, Option.map_eq_some',
      Option.some.injEq, exists_eq_left', exists_eq_left, Prod.mk.injEq] at h
    obtain ⟨⟨d, s1⟩, h1, hv, hs⟩ := h
    subst hv hs
    obtain ⟨_, hwf1⟩ := ih s d s1 hwf h1
    refine ⟨Nat.mod_lt _ (by norm_num), ?_⟩
    intro b hb
    rcases List.mem_append.mp hb with hb | hb
    · exact hwf1 b hb
    · rw [List.eq_of_mem_replicate hb]
      norm_num
  | IfThenExpr cond true_branch ihc iht =>
    intro s v s' hwf h
    simp only [interpret_expr, Option.bind_eq_some] at h
    obtain ⟨⟨c, s1⟩, h1, h2⟩ := h
    obtain ⟨_, hwf1⟩ := ihc s c s1 hwf h1
    split at h2
    · simp only [Option.some.injEq, Prod.mk.injEq] at h2
      obtain ⟨hv, hs⟩ := h2
      subst hv hs
      exact ⟨by norm_num, hwf1⟩
    · exact iht s1 v s' hwf1 h2
  | IfThenElseExpr cond true_branch false_branch ihc iht ihf =>
    intro s v s' hwf h
    simp only [interpret_expr, Option.bind_eq_some] at h
    obtain ⟨⟨c, s1⟩, h1, h2⟩ := h
    obtain ⟨_, hwf1⟩ := ihc s c s1 hwf h1
    split at h2
    · exact ihf s1 v s' hwf1 h2
    · exact iht s1 v s' hwf1 h2
  | LoadExpr typ addr ih =>
    intro s v s' hwf h
    cases typ with
    | F32 => simp [interpret_expr, from_f32] at h
    | F64 => simp [interpret_expr, from_f64] at h
    | I32 =>
      simp only [interpret_expr, from_i32, Option.bind_eq_some, Option.map_eq_some',
        Option.some.injEq, exists_eq_left', exists_eq_left, Prod.mk.injEq] at h
      obtain ⟨⟨a, s1⟩, h1, value, hread, hv, hs⟩ := h
      subst hv hs
      obtain ⟨_, hwf1⟩ := ih s a s1 hwf h1
      have hlt := read_bytes_lt s1.heap a 4 value hwf1 hread
      have h256 : (256 : Nat) ^ 4 = 2 ^ 32 := by norm_num
      exact ⟨by omega, hwf1⟩
    | I64 => simp [interpret_expr, from_i64] at h
  | NopExpr =>
    intro s v s' hwf h
    simp only [interpret_expr, Option.some.injEq, Prod.mk.injEq] at h
    obtain ⟨hv, hs⟩ := h
    subst hv hs
    exact ⟨by norm_num, hwf⟩
  | SetLocalExpr position value ih =>
    intro s v s' hwf h
    simp only [interpret_expr, Option.bind_eq_some] at h
    obtain ⟨⟨w, s1⟩, h1, h2⟩ := h
    obtain ⟨hw, hwf1⟩ := ih s w s1 hwf h1
    split at h2
    · simp only [Option.some.injEq, Prod.mk.injEq] at h2
      obtain ⟨hv, hs⟩ := h2
      subst hv hs
      exact ⟨hw, hwf1⟩
    · cases h2
  | StoreExpr typ addr value iha ihv =>
    intro s v s' hwf h
    cases typ with
    | F32 =>
      simp only [interpret_expr, Option.bind_eq_some] at h
      obtain ⟨⟨a, s1⟩, _, h2⟩ := h
      cases h2
    | F64 =>
      simp only [interpret_expr, Option.bind_eq_some] at h
      obtain ⟨⟨a, s1⟩, _, h2⟩ := h
      cases h2
    | I32 =>
      simp only [interpret_expr, from_i32, Option.bind_eq_some, Option.map_eq_some',
        Option.some.injEq, exists_eq_left', exists_eq_left, Prod.mk.injEq] at h
      obtain ⟨⟨a, s1⟩, h1, ⟨w, s2⟩, h2, h3, hwrite, hv, hs⟩ := h
      subst hv hs
      obtain ⟨_, hwf1⟩ := iha s a s1 hwf h1
      obtain ⟨hw, hwf2⟩ := ihv s1 w s2 hwf1 h2
      exact ⟨hw, write_bytes_wf s2.heap a 4 w h3 hwf2 hwrite⟩
    | I64 =>
      simp only [interpret_expr, Option.bind_eq_some] at h
      obtain ⟨⟨a, s1⟩, _, h2⟩ := h
      cases h2
  | UnaryOpExpr typ op arg ih =>
    intro s v s' hwf h
    simp only [interpret_expr, Option.map_eq_some', Prod.mk.injEq] at h
    obtain ⟨⟨a, s1⟩, h1, hv, hs⟩ := h
    subst hv hs
    obtain ⟨_, hwf1⟩ := ih s a s1 hwf h1
    exact ⟨interpret_unop_lt op a, hwf1⟩

/-! Heap length: evaluation never shrinks the heap, and expressions free
of grow-memory nodes leave its length unchanged. -/

lemma interp_heap_len (e : Expr) : ∀ (s : State) (v : Nat) (s' : State),
    interpret_expr e s = some (v, s') →
    s.heap.length ≤ s'.heap.length ∧
      (no_grow e = true → s'.heap.length = s.heap.length) := by
  induction e with
  | BinOpExpr typ op lhs rhs ihl ihr =>
    intro s v s' h
    simp only [interpret_expr, Option.bind_eq_some, Option.map_eq_some',
      Prod.mk.injEq] at h
    obtain ⟨⟨l, s1⟩, h1, ⟨r, s2⟩, h2, w, hw, hv, hs⟩ := h
    subst hv hs
    obtain ⟨hle1, heq1⟩ := ihl s l s1 h1
    obtain ⟨hle2, heq2⟩ := ihr s1 r s2 h2
    refine ⟨le_trans hle1 hle2, ?_⟩
    simp only [no_grow, Bool.and_eq_true]
    rintro ⟨hg1, hg2⟩
    rw [heq2 hg2, heq1 hg1]
  | ConstExpr c =>
    intro s v s' h
    cases c with
    | F32Const bits => simp [interpret_expr, from_f32] at h
    | F64Const bits => simp [interpret_expr, from_f64] at h
    | I32Const value =>
      simp only [interpret_expr, from_i32, Option.map_some', Option.some.injEq,
        Prod.mk.injEq] at h
      obtain ⟨hv, hs⟩ := h
      subst hv hs
      exact ⟨le_refl _, fun _ => rfl⟩
    | I64Const value => simp [interpret_expr, from_i64] at h
  | GetLocalExpr position =>
    intro s v s' h
    simp only [interpret_expr] at h
    split at h
    · simp only [Option.some.injEq, Prod.mk.injEq] at h
      obtain ⟨hv, hs⟩ := h
      subst hv hs
      exact ⟨le_refl _, fun _ => rfl⟩
    · cases h
  | GrowMemoryExpr ext ih =>
    intro s v s' h
    simp only [interpret_expr, from_i32, Option.bind_eq_some, Option.map_eq_some',
      Option.some.injEq, exists_eq_left', exists_eq_left, Prod.mk.injEq] at h
    obtain ⟨⟨d, s1⟩, h1, hv, hs⟩ := h
    subst hv hs
    obtain ⟨hle1, _⟩ := ih s d s1 h1
    refine ⟨?_, by simp [no_grow]⟩
    simp only [List.length_append, List.length_replicate]
    omega
  | IfThenExpr cond true_branch ihc iht =>
    intro s v s' h
    simp only [interpret_expr, Option.bind_eq_some] at h
    obtain ⟨⟨c, s1⟩, h1, h2⟩ := h
    obtain ⟨hle1, heq1⟩ := ihc s c s1 h1
    split at h2
    · simp only [Option.some.injEq, Prod.mk.injEq] at h2
      obtain ⟨hv, hs⟩ := h2
      subst hv hs
      refine ⟨hle1, ?_⟩
      simp only [no_grow, Bool.and_eq_true]
      rintro ⟨hg1, _⟩
      exact heq1 hg1
    · obtain ⟨hle2, heq2⟩ := iht s1 v s' h2
      refine ⟨le_trans hle1 hle2, ?_⟩
      simp only [no_grow, Bool.and_eq_true]
      rintro ⟨hg1, hg2⟩
      rw [heq2 hg2, heq1 hg1]
  | IfThenElseExpr cond true_branch false_branch ihc iht ihf =>
    intro s v s' h
    simp only [interpret_expr, Option.bind_eq_some] at h
    obtain ⟨⟨c, s1⟩, h1, h2⟩ := h
    obtain ⟨hle1, heq1⟩ := ihc s c s1 h1
    split at h2
    · obtain ⟨hle2, heq2⟩ := ihf s1 v s' h2
      refine ⟨le_trans hle1 hle2, ?_⟩
      simp only [no_grow, Bool.and_eq_true]
      rintro ⟨hg1, _, hg3⟩
      rw [heq2 hg3, heq1 hg1]
    · obtain ⟨hle2, heq2⟩ := iht s1 v s' h2
      refine ⟨le_trans hle1 hle2, ?_⟩
      simp only [no_grow, Bool.and_eq_true]
      rintro ⟨hg1, hg2, _⟩
      rw [heq2 hg2, heq1 hg1]
  | LoadExpr typ addr ih =>
    intro s v s' h
    cases typ with
    | F32 => simp [interpret_expr, from_f32] at h
    | F64 => simp [interpret_expr, from_f64] at h
    | I32 =>
      simp only [interpret_expr, from_i32, Option.bind_eq_some, Option.map_eq_some',
        Option.some.injEq, exists_eq_left', exists_eq_left, Prod.mk.injEq] at h
      obtain ⟨⟨a, s1⟩, h1, value, hread, hv, hs⟩ := h
      subst hv hs
      obtain ⟨hle1, heq1⟩ := ih s a s1 h1
      exact ⟨hle1, fun hg => heq1 hg⟩
    | I64 => simp [interpret_expr, from_i64] at h
  | NopExpr =>
    intro s v s' h
    simp only [interpret_expr, Option.some.injEq, Prod.mk.injEq] at h
    obtain ⟨hv, hs⟩ := h
    subst hv hs
    exact ⟨le_refl _, fun _ => rfl⟩
  | SetLocalExpr position value ih =>
    intro s v s' h
    simp only [interpret_expr, Option.bind_eq_some] at h
    obtain ⟨⟨w, s1⟩, h1, h2⟩ := h
    obtain ⟨hle1, heq1⟩ := ih s w s1 h1
    split at h2
    · simp only [Option.some.injEq, Prod.mk.injEq] at h2
      obtain ⟨hv, hs⟩ := h2
      subst hv hs
      exact ⟨hle1, fun hg => heq1 hg⟩
    · cases h2
  | StoreExpr typ addr value iha ihv =>
    intro s v s' h
    cases typ with
    | F32 =>
      simp only [interpret_expr, Option.bind_eq_some] at h
      obtain ⟨⟨a, s1⟩, _, h2⟩ := h
      cases h2
    | F64 =>
      simp only [interpret_expr, Option.bind_eq_some] at h
      obtain ⟨⟨a, s1⟩, _, h2⟩ := h
      cases h2
    | I32 =>
      simp only [interpret_expr, from_i32, Option.bind_eq_some, Option.map_eq_some',
        Option.some.injEq, exists_eq_left', exists_eq_left, Prod.mk.injEq] at h
      obtain ⟨⟨a, s1⟩, h1, ⟨w, s2⟩, h2, h3, hwrite, hv, hs⟩ := h
      subst hv hs
      obtain ⟨hle1, heq1⟩ := iha s a s1 h1
      obtain ⟨hle2, heq2⟩ := ihv s1 w s2 h2
      have hwl := write_bytes_length s2.heap a 4 w h3 hwrite
      refine ⟨?_, ?_⟩
      · show s.heap.length ≤ h3.length
        omega
      · simp only [no_grow, Bool.and_eq_true]
        rintro ⟨hg1, hg2⟩
        show h3.length = s.heap.length
        rw [hwl, heq2 hg2, heq1 hg1]
    | I64 =>
      simp only [interpret_expr, Option.bind_eq_some] at h
      obtain ⟨⟨a, s1⟩, _, h2⟩ := h
      cases h2
  | UnaryOpExpr typ op arg ih =>
    intro s v s' h
    simp only [interpret_expr, Option.map_eq_some', Prod.mk.injEq] at h
    obtain ⟨⟨a, s1⟩, h1, hv, hs⟩ := h
    subst hv hs
    obtain ⟨hle1, heq1⟩ := ih s a s1 h1
    exact ⟨hle1, fun hg => heq1 hg⟩

/-! Rotation lemmas -/

lemma testBit_high (a i : Nat) (ha : a < 2 ^ 32) (hi : 32 ≤ i) :
    a.testBit i = false :=
  Nat.testBit_lt_two_pow (lt_of_lt_of_le ha (Nat.pow_le_pow_right (by norm_num) hi))

lemma testBit_rotate_right (a k i : Nat) (ha : a < 2 ^ 32) (hk : k < 32) :
    (rotate_right a k).testBit i =
      if i < 32 then a.testBit ((i + k) % 32) else false := by
  unfold rotate_right
  rw [Nat.mod_eq_of_lt hk]
  simp only [Nat.testBit_lor, Nat.testBit_mod_two_pow, Nat.testBit_shiftLeft,
    Nat.testBit_shiftRight]
  by_cases h32 : i < 32
  · by_cases hlow : i < 32 - k
    · have h1 : (i + k) % 32 = k + i := by omega
      have h2 : ¬ (i ≥ 32 - k) := by omega
      rw [if_pos h32, h1]
      simp [h2]
    · have h2 : i ≥ 32 - k := by omega
      have h1 : (i + k) % 32 = i - (32 - k) := by omega
      have h3 : a.testBit (k + i) = false := testBit_high a (k + i) ha (by omega)
      rw [if_pos h32, h1, h3]
      simp [h2, h32]
  · have h3 : a.testBit (k + i) = false := testBit_high a (k + i) ha (by omega)
    rw [if_neg h32, h3]
    simp [h32]

lemma testBit_rotate_left (a k i : Nat) (ha : a < 2 ^ 32) (hk : k < 32) :
    (rotate_left a k).testBit i =
      if i < 32 then a.testBit ((i + (32 - k)) % 32) else false := by
  unfold rotate_left
  rw [Nat.mod_eq_of_lt hk]
  simp only [Nat.testBit_lor, Nat.testBit_mod_two_pow, Nat.testBit_shiftLeft,
    Nat.testBit_shiftRight]
  by_cases h32 : i < 32
  · by_cases hge : k ≤ i
    · have h1 : (i + (32 - k)) % 32 = i - k := by omega
      have h3 : a.testBit (32 - k + i) = false :=
        testBit_high a (32 - k + i) ha (by omega)
      rw [if_pos h32, h1, h3]
      simp [h32, hge]
    · have h1 : (i + (32 - k)) % 32 = 32 - k + i := by omega
      have h2 : ¬ (i ≥ k) := by omega
      rw [if_pos h32, h1]
      simp [h2]
  · have h3 : a.testBit (32 - k + i) = false :=
      testBit_high a (32 - k + i) ha (by omega)
    rw [if_neg h32, h3]
    simp [h32]

lemma rotate_left_rotate_right (a k : Nat) (ha : a < 2 ^ 32) (hk : k < 32) :
    rotate_left (rotate_right a k) k = a := by
  have hr : rotate_right a k < 2 ^ 32 := rotate_right_lt a k ha
  apply Nat.eq_of_testBit_eq
  intro i
  rw [testBit_rotate_left _ k i hr hk]
  by_cases h32 : i < 32
  · rw [if_pos h32, testBit_rotate_right a k _ ha hk,
      if_pos (Nat.mod_lt _ (by norm_num : (0 : Nat) < 32))]
    congr 1
    omega
  · rw [if_neg h32]
    exact (testBit_high a i ha (by omega)).symm

/-! Claim theorems -/

/-- C1, claim as stated, is false: the claim says a grow-memory node first
evaluates the size-delta expression and then records the current heap
length, returning that recorded length.  The code records the length
before evaluating the delta expression, which is observable when the
delta expression itself grows the heap: a nested grow-memory returns the
original length 10, not the post-delta length 13. -/
theorem C1_counterexample :
    ¬ (∀ (ext : Expr) (s : State) (d : Nat) (s1 : State),
        interpret_expr ext s = some (d, s1) →
        interpret_expr (.GrowMemoryExpr ext) s =
          some (s1.heap.length % 2 ^ 32,
            { s1 with heap := s1.heap ++ List.replicate d 0 })) := by
  intro hclaim
  have hinner : interpret_expr (.GrowMemoryExpr (.ConstExpr (.I32Const 3)))
      ⟨[], List.replicate 10 0⟩ = some (10, ⟨[], List.replicate 13 0⟩) := by decide
  have hthis := hclaim (.GrowMemoryExpr (.ConstExpr (.I32Const 3)))
    ⟨[], List.replicate 10 0⟩ 10 ⟨[], List.replicate 13 0⟩ hinner
  have hactual : interpret_expr
      (.GrowMemoryExpr (.GrowMemoryExpr (.ConstExpr (.I32Const 3))))
      ⟨[], List.replicate 10 0⟩ =
      some (10, ⟨[], List.replicate 13 0 ++ List.replicate 10 0⟩) := by decide
  rw [hactual] at hthis
  exact absurd hthis (by decide)

/-- C1 (amended): a grow-memory node records the current heap length
BEFORE evaluating the size-delta expression in the 32-bit-integer lane,
then appends delta-many zero bytes to the (post-delta-evaluation) heap
and returns the recorded pre-evaluation length as a 32-bit-integer
result; the heap length after equals the length before the append plus
the delta, and the appended region is all zero. -/
theorem C1_grow_memory :
    ∀ (ext : Expr) (s : State) (d : Nat) (s1 : State),
      interpret_expr ext s = some (d, s1) →
      interpret_expr (.GrowMemoryExpr ext) s =
        some (s.heap.length % 2 ^ 32,
          { s1 with heap := s1.heap ++ List.replicate d 0 }) ∧
      (s1.heap ++ List.replicate d 0).length = s1.heap.length + d ∧
      (∀ i, i < d → (s1.heap ++ List.replicate d 0).getD (s1.heap.length + i) 1 = 0) := by
  intro ext s d s1 h
  refine ⟨?_, ?_, ?_⟩
  · simp [interpret_expr, h, from_i32]
  · simp
  · intro i hi
    rw [List.getD_eq_getElem?_getD,
      List.getElem?_append_right (by omega : s1.heap.length ≤ s1.heap.length + i),
      List.getElem?_replicate]
    rw [show s1.heap.length + i - s1.heap.length = i from by omega, if_pos hi]
    rfl

/-- Witness for C1 (amended): growing a 10-byte heap by a constant 4
returns 10. -/
theorem C1_witness :
    interpret_expr (.ConstExpr (.I32Const 4)) ⟨[], List.replicate 10 0⟩ =
      some (4, ⟨[], List.replicate 10 0⟩) ∧
    interpret_expr (.GrowMemoryExpr (.ConstExpr (.I32Const 4)))
        ⟨[], List.replicate 10 0⟩ =
      some ((⟨[], List.replicate 10 0⟩ : State).heap.length % 2 ^ 32,
        { (⟨[], List.replicate 10 0⟩ : State) with
            heap := List.replicate 10 0 ++ List.replicate 4 0 }) :=
  ⟨by decide,
    (C1_grow_memory (.ConstExpr (.I32Const 4)) ⟨[], List.replicate 10 0⟩ 4
      ⟨[], List.replicate 10 0⟩ (by decide)).1⟩

/-- C2, claim as stated, is false: interpret_binop on the u32 lane is
claimed total except for division or remainder with a zero right
operand, but signed division also aborts on i32::MIN divided by -1
(operands 2 ^ 31 and 2 ^ 32 - 1), whose quotient overflows i32. -/
theorem C2_counterexample :
    ¬ (∀ (op : BinOp) (a b : Nat), a < 2 ^ 32 → b < 2 ^ 32 →
        ((interpret_binop op a b).isSome ↔
          ¬ ((op = .DivU ∨ op = .DivS ∨ op = .RemU ∨ op = .RemS) ∧ b = 0))) := by
  intro hclaim
  have hthis := hclaim .DivS (2 ^ 31) (2 ^ 32 - 1) (by norm_num) (by norm_num)
  have hnone : interpret_binop .DivS (2 ^ 31) (2 ^ 32 - 1) = none := by decide
  rw [hnone] at hthis
  simp at hthis

/-- C2 (amended): on the u32 lane interpret_binop is total except that
divU, divS, remU, remS abort on a zero right operand and divS, remS
additionally abort on the signed-overflow pair i32::MIN (2 ^ 31) with
-1 (2 ^ 32 - 1). -/
theorem C2_binop_totality :
    ∀ (op : BinOp) (a b : Nat), a < 2 ^ 32 → b < 2 ^ 32 →
      (interpret_binop op a b = none ↔
        (((op = .DivU ∨ op = .DivS ∨ op = .RemU ∨ op = .RemS) ∧ b = 0) ∨
          ((op = .DivS ∨ op = .RemS) ∧ a = 2 ^ 31 ∧ b = 2 ^ 32 - 1))) := by
  intro op a b ha hb
  have hsb : (toSigned b = 0) ↔ b = 0 := by unfold toSigned; split <;> omega
  have hsa : (toSigned a = -(2 ^ 31)) ↔ a = 2 ^ 31 := by
    unfold toSigned; split <;> omega
  have hsb1 : (toSigned b = -1) ↔ b = 2 ^ 32 - 1 := by
    unfold toSigned; split <;> omega
  cases op
  case DivU =>
    simp only [interpret_binop]
    split <;> simp_all
  case RemU =>
    simp only [interpret_binop]
    split <;> simp_all
  case DivS =>
    simp only [interpret_binop]
    split
    · simp_all
    · split
      · rename_i hcond
        simp only [hsa, hsb, hsb1] at hcond
        simp_all
      · rename_i hne hcond
        simp only [hsa, hsb, hsb1] at hcond hne
        simp_all
  case RemS =>
    simp only [interpret_binop]
    split
    · simp_all
    · split
      · rename_i hcond
        simp only [hsa, hsb, hsb1] at hcond
        simp_all
      · rename_i hne hcond
        simp only [hsa, hsb, hsb1] at hcond hne
        simp_all
  all_goals simp [interpret_binop]

/-- Witness for C2 (amended): addition never aborts. -/
theorem C2_witness :
    (1 : Nat) < 2 ^ 32 ∧ (2 : Nat) < 2 ^ 32 ∧
    (interpret_binop .Add 1 2 = none ↔
      (((BinOp.Add = .DivU ∨ BinOp.Add = .DivS ∨ BinOp.Add = .RemU ∨
          BinOp.Add = .RemS) ∧ (2 : Nat) = 0) ∨
        ((BinOp.Add = .DivS ∨ BinOp.Add = .RemS) ∧ (1 : Nat) = 2 ^ 31 ∧
          (2 : Nat) = 2 ^ 32 - 1))) :=
  ⟨by norm_num, by norm_num, C2_binop_totality .Add 1 2 (by norm_num) (by norm_num)⟩

/-- C3: a conditional evaluates its condition in the 32-bit-integer lane
with zero meaning false and evaluates only the taken branch: the state
after a false if-then is exactly the state after the condition (the
untaken branch has no side effects) and the result is the default value
0; with an else-branch, exactly the taken branch runs from the
post-condition state. -/
theorem C3_conditional_short_circuit :
    ∀ (cond true_branch false_branch : Expr) (s : State) (c : Nat) (s1 : State),
      interpret_expr cond s = some (c, s1) →
      (interpret_expr (.IfThenExpr cond true_branch) s =
        if c = 0 then some (0, s1) else interpret_expr true_branch s1) ∧
      (interpret_expr (.IfThenElseExpr cond true_branch false_branch) s =
        if c = 0 then interpret_expr false_branch s1
        else interpret_expr true_branch s1) := by
  intro cond tb fb s c s1 h
  constructor <;> simp [interpret_expr, h]

/-- Witness for C3: a false condition with a store in the then-branch
performs no store and returns the default 0. -/
theorem C3_witness :
    interpret_expr (.ConstExpr (.I32Const 0)) ⟨[], List.replicate 4 9⟩ =
      some (0, ⟨[], List.replicate 4 9⟩) ∧
    (interpret_expr
        (.IfThenExpr (.ConstExpr (.I32Const 0))
          (.StoreExpr .I32 (.ConstExpr (.I32Const 0)) (.ConstExpr (.I32Const 1))))
        ⟨[], List.replicate 4 9⟩ =
      if (0 : Nat) = 0 then some (0, ⟨[], List.replicate 4 9⟩)
      else interpret_expr
        (.StoreExpr .I32 (.ConstExpr (.I32Const 0)) (.ConstExpr (.I32Const 1)))
        ⟨[], List.replicate 4 9⟩) ∧
    (interpret_expr
        (.IfThenElseExpr (.ConstExpr (.I32Const 0))
          (.StoreExpr .I32 (.ConstExpr (.I32Const 0)) (.ConstExpr (.I32Const 1)))
          .NopExpr)
        ⟨[], List.replicate 4 9⟩ =
      if (0 : Nat) = 0 then interpret_expr .NopExpr ⟨[], List.replicate 4 9⟩
      else interpret_expr
        (.StoreExpr .I32 (.ConstExpr (.I32Const 0)) (.ConstExpr (.I32Const 1)))
        ⟨[], List.replicate 4 9⟩) := by
  have h := C3_conditional_short_circuit (.ConstExpr (.I32Const 0))
    (.StoreExpr .I32 (.ConstExpr (.I32Const 0)) (.ConstExpr (.I32Const 1)))
    .NopExpr ⟨[], List.replicate 4 9⟩ 0 ⟨[], List.replicate 4 9⟩ (by decide)
  exact ⟨by decide, h.1, h.2⟩

/-- C4: a write-local node with in-range index stores to_raw of the
evaluated value into the slot and returns the written value, and a
subsequent read-local on the same index observes that same value. -/
theorem C4_write_local_then_read :
    ∀ (position : Nat) (value : Expr) (s : State) (v : Nat) (s1 : State),
      heapWF s →
      interpret_expr value s = some (v, s1) →
      position < s1.locals.length →
      interpret_expr (.SetLocalExpr position value) s =
        some (v, { s1 with locals := s1.locals.set position (to_raw v) }) ∧
      interpret_expr (.GetLocalExpr position)
          { s1 with locals := s1.locals.set position (to_raw v) } =
        some (v, { s1 with locals := s1.locals.set position (to_raw v) }) := by
  intro position value s v s1 hwf h hpos
  have hv : v < 2 ^ 32 := (interp_inv value s v s1 hwf h).1
  constructor
  · simp [interpret_expr, h, hpos, to_raw]
  · have hget : (s1.locals.set position (to_raw v)).getD position 0 = to_raw v := by
      rw [List.getD_eq_getElem?_getD, List.getElem?_set_self (by simpa using hpos)]
      rfl
    simp [interpret_expr, List.length_set, hpos, hget, from_raw, to_raw]
    omega

/-- Witness for C4: writing constant 7 to local 0 then reading it back. -/
theorem C4_witness :
    heapWF ⟨[0], []⟩ ∧
    interpret_expr (.ConstExpr (.I32Const 7)) ⟨[0], []⟩ = some (7, ⟨[0], []⟩) ∧
    (0 : Nat) < ([0] : List Nat).length ∧
    interpret_expr (.SetLocalExpr 0 (.ConstExpr (.I32Const 7))) ⟨[0], []⟩ =
      some (7, { (⟨[0], []⟩ : State) with locals := ([0] : List Nat).set 0 (to_raw 7) }) ∧
    interpret_expr (.GetLocalExpr 0)
        { (⟨[0], []⟩ : State) with locals := ([0] : List Nat).set 0 (to_raw 7) } =
      some (7, { (⟨[0], []⟩ : State) with locals := ([0] : List Nat).set 0 (to_raw 7) }) := by
  have hwf : heapWF (⟨[0], []⟩ : State) := by
    intro b hb
    cases hb
  have h := C4_write_local_then_read 0 (.ConstExpr (.I32Const 7)) ⟨[0], []⟩ 7
    ⟨[0], []⟩ hwf (by decide) (by decide)
  exact ⟨hwf, by decide, by decide, h.1, h.2⟩

/-- C5: encoding a value into the heap at offset o and decoding the same
representation from o yields the value back, little-endian, whenever
o + size fits in the heap (stated for any byte width n, which covers the
4- and 8-byte representations); and at the expression level, an I32
store node followed by an I32 load node at the same address yields the
stored value. -/
theorem C5_store_load_roundtrip :
    ∀ (heap : List Nat) (off n v : Nat) (s : State) (a w : Nat),
      (off + n ≤ heap.length → v < 256 ^ n →
        ∃ h2, write_bytes heap off n v = some h2 ∧
          read_bytes h2 off n = some v ∧ h2.length = heap.length) ∧
      (a < 2 ^ 32 → w < 2 ^ 32 → a + 4 ≤ s.heap.length →
        ∃ h2, write_bytes s.heap a 4 w = some h2 ∧
          interpret_expr
              (.StoreExpr .I32 (.ConstExpr (.I32Const a)) (.ConstExpr (.I32Const w)))
              s = some (w, { s with heap := h2 }) ∧
          interpret_expr (.LoadExpr .I32 (.ConstExpr (.I32Const a)))
              { s with heap := h2 } = some (w, { s with heap := h2 })) := by
  intro heap off n v s a w
  constructor
  · intro hoff hv
    exact read_write_bytes heap off n v hoff hv
  · intro ha hw hfit
    have hw4 : w < 256 ^ 4 := by
      have : (256 : Nat) ^ 4 = 2 ^ 32 := by norm_num
      omega
    obtain ⟨h2, hwrite, hread, hlen⟩ := read_write_bytes s.heap a 4 w hfit hw4
    have ha' : a % 2 ^ 32 = a := Nat.mod_eq_of_lt ha
    have hw' : w % 2 ^ 32 = w := Nat.mod_eq_of_lt hw
    refine ⟨h2, hwrite, ?_, ?_⟩
    · simp only [interpret_expr, from_i32, ha', hw', Option.some_bind,
        Option.map_some', hwrite]
    · simp only [interpret_expr, from_i32, ha', hread, Option.some_bind,
        Option.map_some']

/-- Witness for C5: storing the 32-bit value 305419896 at offset 2 of an
8-byte heap and reading it back, and an I32 store node followed by an
I32 load node at address 0. -/
theorem C5_witness :
    (∃ h2, write_bytes (List.replicate 8 0) 2 4 305419896 = some h2 ∧
      read_bytes h2 2 4 = some 305419896 ∧
      h2.length = (List.replicate 8 0 : List Nat).length) ∧
    (∃ h2, write_bytes (List.replicate 8 0) 0 4 5 = some h2 ∧
      interpret_expr
          (.StoreExpr .I32 (.ConstExpr (.I32Const 0)) (.ConstExpr (.I32Const 5)))
          ⟨[], List.replicate 8 0⟩ = some (5, (⟨[], h2⟩ : State)) ∧
      interpret_expr (.LoadExpr .I32 (.ConstExpr (.I32Const 0)))
          (⟨[], h2⟩ : State) = some (5, (⟨[], h2⟩ : State))) :=
  ⟨(C5_store_load_roundtrip (List.replicate 8 0) 2 4 305419896
      ⟨[], List.replicate 8 0⟩ 0 5).1 (by decide) (by norm_num),
    (C5_store_load_roundtrip (List.replicate 8 0) 2 4 305419896
      ⟨[], List.replicate 8 0⟩ 0 5).2 (by norm_num) (by norm_num) (by decide)⟩

/-- C6: on the u32 lane, add, sub and mul wrap modulo 2 ^ 32; sub is
stated with mathematical integer subtraction reduced modulo 2 ^ 32. -/
theorem C6_add_sub_mul_wrapping :
    ∀ (a b : Nat), a < 2 ^ 32 → b < 2 ^ 32 →
      interpret_binop .Add a b = some ((a + b) % 2 ^ 32) ∧
      interpret_binop .Sub a b = some ((((a : Int) - (b : Int)) % 2 ^ 32).toNat) ∧
      interpret_binop .Mul a b = some ((a * b) % 2 ^ 32) := by
  intro a b ha hb
  refine ⟨rfl, ?_, rfl⟩
  simp only [interpret_binop, Option.some.injEq]
  omega

/-- Witness for C6 at a = 3, b = 5. -/
theorem C6_witness :
    (3 : Nat) < 2 ^ 32 ∧ (5 : Nat) < 2 ^ 32 ∧
    (interpret_binop .Add 3 5 = some ((3 + 5) % 2 ^ 32) ∧
      interpret_binop .Sub 3 5 = some ((((3 : Int) - (5 : Int)) % 2 ^ 32).toNat) ∧
      interpret_binop .Mul 3 5 = some ((3 * 5) % 2 ^ 32)) :=
  ⟨by norm_num, by norm_num, C6_add_sub_mul_wrapping 3 5 (by norm_num) (by norm_num)⟩

/-- C7: rotating right then left by the same amount k in [0, 32) is the
identity on u32 values. -/
theorem C7_rotl_rotr_inverse :
    ∀ (a k : Nat), a < 2 ^ 32 → k < 32 →
      (interpret_binop .RotR a k).bind (fun r => interpret_binop .RotL r k) =
        some a := by
  intro a k ha hk
  simp only [interpret_binop, Option.some_bind]
  exact congrArg some (rotate_left_rotate_right a k ha hk)

/-- Witness for C7 at a = 305419896, k = 7. -/
theorem C7_witness :
    (305419896 : Nat) < 2 ^ 32 ∧ (7 : Nat) < 32 ∧
    (interpret_binop .RotR 305419896 7).bind
        (fun r => interpret_binop .RotL r 7) = some 305419896 :=
  ⟨by norm_num, by norm_num,
    C7_rotl_rotr_inverse 305419896 7 (by norm_num) (by norm_num)⟩

/-- C8: on the u32 lane, lifting a constant succeeds only for the
32-bit-integer literal kind, unchanged; float and 64-bit-integer
constants abort fatally with a type error. -/
theorem C8_constant_lane_typing :
    ∀ (s : State) (bits32 bits64 v64 v32 : Nat),
      interpret_expr (.ConstExpr (.F32Const bits32)) s = none ∧
      interpret_expr (.ConstExpr (.F64Const bits64)) s = none ∧
      interpret_expr (.ConstExpr (.I64Const v64)) s = none ∧
      from_i32 v32 = some v32 ∧
      interpret_expr (.ConstExpr (.I32Const v32)) s = some (v32 % 2 ^ 32, s) := by
  intro s bits32 bits64 v64 v32
  exact ⟨by simp [interpret_expr, from_f32], by simp [interpret_expr, from_f64],
    by simp [interpret_expr, from_i64], rfl, by simp [interpret_expr, from_i32]⟩

/-- C9: on the u32 lane, shift amounts are taken modulo 32 and no shift
amount aborts. -/
theorem C9_shift_amount_mod_32 :
    ∀ (a k : Nat),
      interpret_binop .Shl a k = interpret_binop .Shl a (k % 32) ∧
      interpret_binop .ShrU a k = interpret_binop .ShrU a (k % 32) ∧
      interpret_binop .ShrS a k = interpret_binop .ShrS a (k % 32) ∧
      (interpret_binop .Shl a k).isSome ∧
      (interpret_binop .ShrU a k).isSome ∧
      (interpret_binop .ShrS a k).isSome := by
  intro a k
  have h : k % 32 % 32 = k % 32 := by omega
  simp [interpret_binop, h]

/-- C10: evaluation never shrinks the heap, and an expression free of
grow-memory nodes leaves the heap length exactly unchanged. -/
theorem C10_heap_never_shrinks :
    ∀ (e : Expr) (s : State) (v : Nat) (s' : State),
      interpret_expr e s = some (v, s') →
      s.heap.length ≤ s'.heap.length ∧
        (no_grow e = true → s'.heap.length = s.heap.length) :=
  fun e => interp_heap_len e

/-- Witness for C10: growing a 10-byte heap by 4. -/
theorem C10_witness :
    interpret_expr (.GrowMemoryExpr (.ConstExpr (.I32Const 4)))
        ⟨[], List.replicate 10 0⟩ =
      some (10, ⟨[], List.replicate 10 0 ++ List.replicate 4 0⟩) ∧
    ((⟨[], List.replicate 10 0⟩ : State).heap.length ≤
        ((⟨[], List.replicate 10 0 ++ List.replicate 4 0⟩ : State)).heap.length ∧
      (no_grow (.GrowMemoryExpr (.ConstExpr (.I32Const 4))) = true →
        ((⟨[], List.replicate 10 0 ++ List.replicate 4 0⟩ : State)).heap.length =
          (⟨[], List.replicate 10 0⟩ : State).heap.length)) :=
  ⟨by decide,
    C10_heap_never_shrinks (.GrowMemoryExpr (.ConstExpr (.I32Const 4)))
      ⟨[], List.replicate 10 0⟩ 10 ⟨[], List.replicate 10 0 ++ List.replicate 4 0⟩
      (by decide)⟩

end WasmInterpreter
